import Mathlib

/-!
Shallow embedding of `src/skills/browser-tab-organizer/scripts/tab_stats.py`.

The script reads a JSON file, extracts `urlparse(t['url']).netloc` for every
record `t` with a `'url'` key, tallies the domains with
`collections.Counter(domains).most_common()`, and prints a fixed-width table of
the top 30 entries.  The embedding below models the parsed JSON value, the
Python dynamic-typing behaviour of the comprehension
`[urlparse(t['url']).netloc for t in tabs if 'url' in t]` (including the
exceptions it can raise), CPython's `urllib.parse.urlsplit` netloc extraction,
`Counter`/`most_common`, and the printing code of `main`.
-/

namespace TabStats

/-- A parsed JSON value, as produced by `json.load`.  Numbers are modelled as
integers (their numeric value never matters to the script, only that they are
not iterable, not subscriptable and not strings); object key lists are the
dictionaries produced by `json.load`, whose keys are distinct. -/
inductive Json where
  | null
  | bool (b : Bool)
  | num (n : Int)
  | str (s : String)
  | arr (elems : List Json)
  | obj (fields : List (String × Json))

/-- A Python exception escaping the extraction comprehension. -/
inductive PyErr where
  | typeError
  | keyError
  | attrError
  | valueError (msg : String)

/-- Models Python `for t in tabs`: lists iterate over elements, strings over
their characters, dicts over their keys; other values raise `TypeError`. -/
def pyIter : Json → Except PyErr (List Json)
  | .arr xs => .ok xs
  | .str s => .ok (s.data.map (fun c => Json.str (String.mk [c])))
  | .obj kvs => .ok (kvs.map (fun kv => Json.str kv.1))
  | _ => .error .typeError

/-- Decides whether `pat` occurs as a contiguous run at the front of `s`. -/
def charsPrefix : List Char → List Char → Bool
  | [], _ => true
  | _ :: _, [] => false
  | a :: as, b :: bs => a == b && charsPrefix as bs

/-- Decides whether `pat` occurs as a contiguous run anywhere in `s`
(Python substring membership `pat in s`). -/
def charsSub (pat : List Char) : List Char → Bool
  | [] => pat.isEmpty
  | c :: rest => charsPrefix pat (c :: rest) || charsSub pat rest

/-- Models Python `'url' in t`: key membership for dicts, substring test for
strings, element equality for lists; other values raise `TypeError`. -/
def pyHasUrl : Json → Except PyErr Bool
  | .obj kvs => .ok (kvs.any (fun kv => kv.1 == "url"))
  | .str s => .ok (charsSub "url".data s.data)
  | .arr xs => .ok (xs.any (fun x => match x with | .str s => s == "url" | _ => false))
  | _ => .error .typeError

/-- Models Python `t['url']`: dict lookup (raising `KeyError` when absent);
indexing a string or list with a string key raises `TypeError`, as does
subscripting any other value. -/
def pyGetUrl : Json → Except PyErr Json
  | .obj kvs =>
    match kvs.find? (fun kv => kv.1 == "url") with
    | some kv => .ok kv.2
    | none => .error .keyError
  | _ => .error .typeError

/-- A domain value produced by `urlparse(t['url']).netloc` inside the
comprehension: either a text netloc (from a `str` url), or the bytes netloc
`b''` produced for a falsy non-str url — `_decode_args` coerces every falsy
argument (`None`, `0`, `false`, `[]`, `{}`) to `''`, `urlsplit('')` has an
empty netloc, and `_encode_result` encodes the components back to bytes, so
`b''` is the only bytes netloc the pipeline can produce.  A bytes key is
distinct from every str key in the `Counter` (`b'' == ''` is false in
Python). -/
inductive Domain where
  | str (s : String)
  | bytesEmpty
deriving DecidableEq

/-- Character class stripped from the front of the URL by `urlsplit`
(WHATWG C0 control characters and space). -/
def isC0OrSpace (c : Char) : Bool := c.toNat ≤ 32

/-- The three bytes removed everywhere in the URL by `urlsplit`
(`_UNSAFE_URL_BYTES_TO_REMOVE`). -/
def isUnsafeUrlChar (c : Char) : Bool := c == '\t' || c == '\r' || c == '\n'

/-- Characters allowed in a URL scheme (`urllib.parse.scheme_chars`). -/
def schemeChar (c : Char) : Bool :=
  c.isAlpha || c.isDigit || c == '+' || c == '-' || c == '.'

/-- Models the scheme-splitting step of `urlsplit`: when the text before the
first colon is a nonempty run of scheme characters starting with an ASCII
letter, the scheme and the colon are removed. -/
def stripScheme (u : List Char) : List Char :=
  let pre := u.takeWhile (fun c => c != ':')
  let ok := decide (pre.length < u.length) && decide (0 < pre.length)
    && (pre.headD '0').isAlpha && pre.all schemeChar
  if ok then u.drop (pre.length + 1) else u

/-- The URL after the input cleanup and scheme split of `urlsplit`: strip
leading control characters and spaces, drop tab/CR/LF everywhere, then remove
a valid scheme prefix. -/
def urlRemainder (s : String) : List Char :=
  stripScheme ((s.data.dropWhile isC0OrSpace).filter (fun c => !(isUnsafeUrlChar c)))

/-- The netloc candidate of `_splitnetloc`: the run after the two slashes up
to the next `/`, `?` or `#`. -/
def netlocChars (s : String) : List Char :=
  ((urlRemainder s).drop 2).takeWhile (fun c => !(c == '/' || c == '?' || c == '#'))

/-- Models `urllib.parse.urlparse(s).netloc` (CPython `urlsplit`): when the
cleaned remainder starts with `//`, the netloc is the run up to the next `/`,
`?` or `#`, and `ValueError "Invalid IPv6 URL"` is raised when it contains
exactly one of `[`, `]`; otherwise the netloc is empty.  The two validation
steps that can reject a *balanced* bracketed host (`_check_bracketed_host`,
CPython 3.11+) or a non-ASCII netloc (`_checknetloc`, NFKC-based) are outside
the model; theorems about success of parsing are therefore stated only for
ASCII, bracket-free inputs, where those checks never fire. -/
def urlparseNetloc (s : String) : Except PyErr String :=
  if (urlRemainder s).take 2 = ['/', '/'] then
    if (netlocChars s).contains '[' != (netlocChars s).contains ']' then
      .error (.valueError "Invalid IPv6 URL")
    else
      .ok (String.mk (netlocChars s))
  else
    .ok ""

/-- Models `urlparse(v).netloc` on an arbitrary JSON value `v`, including the
argument handling of `_coerce_args`/`_decode_args`: a `str` argument is
parsed as such; a falsy non-str value (`null`, `0`, `false`, `[]`, `{}`) is
coerced to `''`, whose parse has an empty netloc, encoded back to bytes as
`b''`; a truthy non-str value raises `AttributeError` (no `.decode`
method). -/
def urlparseValue : Json → Except PyErr Domain
  | .str s =>
    match urlparseNetloc s with
    | .error e => .error e
    | .ok d => .ok (.str d)
  | .null => .ok .bytesEmpty
  | .bool b => if b then .error .attrError else .ok .bytesEmpty
  | .num n => if n = 0 then .ok .bytesEmpty else .error .attrError
  | .arr xs => if xs.isEmpty then .ok .bytesEmpty else .error .attrError
  | .obj kvs => if kvs.isEmpty then .ok .bytesEmpty else .error .attrError

/-- One step of the comprehension
`[urlparse(t['url']).netloc for t in tabs if 'url' in t]`: evaluate
`'url' in t`, and when it holds, append `urlparse(t['url']).netloc` to the
accumulated domain list; any raised exception propagates. -/
def extractStep (acc : List Domain) (t : Json) : Except PyErr (List Domain) :=
  match pyHasUrl t with
  | .error e => .error e
  | .ok false => .ok acc
  | .ok true =>
    match pyGetUrl t with
    | .error e => .error e
    | .ok v =>
      match urlparseValue v with
      | .error e => .error e
      | .ok d => .ok (acc ++ [d])

/-- Left-to-right run of the comprehension body over the iterated items. -/
def extractList (acc : List Domain) : List Json → Except PyErr (List Domain)
  | [] => .ok acc
  | t :: rest =>
    match extractStep acc t with
    | .error e => .error e
    | .ok acc2 => extractList acc2 rest

/-- Models `domains = [urlparse(t['url']).netloc for t in tabs if 'url' in t]`
on the parsed JSON value `tabs`. -/
def extractDomains (tabs : Json) : Except PyErr (List Domain) :=
  match pyIter tabs with
  | .error e => .error e
  | .ok items => extractList [] items

/-- One update of `collections.Counter`: increment the count stored under key
`d`, appending a fresh entry with count 1 when the key is new (Python dicts
preserve insertion order, so a fresh key goes to the back).  Polymorphic in
the key type, as Python `Counter` keys are arbitrary hashables: the script's
keys are the extracted domain values (str, or `b''`). -/
def bump {α : Type} [DecidableEq α] (d : α) : List (α × Nat) → List (α × Nat)
  | [] => [(d, 1)]
  | (k, c) :: rest => if k = d then (k, c + 1) :: rest else (k, c) :: bump d rest

/-- Models `collections.Counter(domains)` as its insertion-ordered
association list of counts. -/
def counter {α : Type} [DecidableEq α] (ds : List α) : List (α × Nat) :=
  ds.foldl (fun acc d => bump d acc) []

/-- Stable descending insertion by count: the new entry is placed after every
existing entry whose count is greater than or equal to its own.  This is the
placement discipline of a stable sort ordered by count descending. -/
def insertDesc {α : Type} (x : α × Nat) : List (α × Nat) → List (α × Nat)
  | [] => [x]
  | y :: ys => if y.2 < x.2 then x :: y :: ys else y :: insertDesc x ys

/-- Models `Counter.most_common()` with no argument:
`sorted(counter.items(), key=itemgetter(1), reverse=True)`, a stable sort of
the insertion-ordered count entries by count descending (the sort key is the
integer count only, so mixed str/bytes keys never get compared). -/
def most_common {α : Type} (l : List (α × Nat)) : List (α × Nat) :=
  l.foldl (fun acc x => insertDesc x acc) []

/-- Sum of the counts of a frequency table. -/
def sumCounts {α : Type} (l : List (α × Nat)) : Nat := (l.map Prod.snd).sum

/-- Models Python `f"{s:<w}"`: left justification padded with spaces to a
minimum width `w`, never truncating. -/
def ljust (s : String) (w : Nat) : String :=
  s ++ String.mk (List.replicate (w - s.length) ' ')

/-- The header line `f"{'Domain':<40} | {'Count':<10}"`. -/
def headerLine : String := ljust "Domain" 40 ++ " | " ++ ljust "Count" 10

/-- The separator line `"-" * 53`. -/
def sepLine : String := String.mk (List.replicate 53 '-')

/-- One data row `f"{domain:<40} | {count:<10}"`. -/
def rowLine (e : String × Nat) : String :=
  ljust e.1 40 ++ " | " ++ ljust (toString e.2) 10

/-- The lines printed on the success path: header, separator, and one row per
entry of `stats[:30]`. -/
def report (stats : List (String × Nat)) : List String :=
  headerLine :: sepLine :: (stats.take 30).map rowLine

/-- The message printed when the path does not exist:
`f"Error: File {json_path} not found."`. -/
def notFoundMsg (path : String) : String :=
  "Error: File " ++ path ++ " not found."

/-- The message printed when opening or parsing the file raises:
`f"Error reading JSON: {e}"`. -/
def readErrorMsg (m : String) : String := "Error reading JSON: " ++ m

/-- One iteration of `for domain, count in stats[:30]`: a str domain formats
normally; a bytes domain (`b''`) raises `TypeError`, since `bytes` rejects
the non-empty `<40` format spec (`bytes.__format__`). -/
def coerceRow : Domain × Nat → Except PyErr (String × Nat)
  | (.str s, c) => .ok (s, c)
  | (.bytesEmpty, _) => .error .typeError

/-- Runs the row loop left to right, stopping at the first formatting
exception; `main` applies it to `stats[:30]` only, so entries beyond the
30th are never formatted. -/
def coerceRows : List (Domain × Nat) → Except PyErr (List (String × Nat))
  | [] => .ok []
  | e :: rest =>
    match coerceRow e with
    | .error err => .error err
    | .ok r =>
      match coerceRows rest with
      | .error err => .error err
      | .ok rs => .ok (r :: rs)

/-- Models `main(json_path)`.  `pathExists` is the result of
`os.path.exists(json_path)`; `loadResult` is the outcome of
`open` + `json.load` (`Except.error` carries the exception message caught by
the `try`).  The returned value is the list of printed lines, or the Python
exception when `main` raises: the domain-extraction line can raise, and so
can the row loop when a printed entry's domain is the bytes value `b''`
(the existence check and the `try`/`except` around loading handle the file
errors).  The error case records only the escaping exception, not the lines
already printed before it was raised. -/
def main (path : String) (pathExists : Bool) (loadResult : Except String Json) :
    Except PyErr (List String) :=
  if pathExists then
    match loadResult with
    | .error m => .ok [readErrorMsg m]
    | .ok tabs =>
      match extractDomains tabs with
      | .error e => .error e
      | .ok ds =>
        match coerceRows ((most_common (counter ds)).take 30) with
        | .error e => .error e
        | .ok rows => .ok (report rows)
  else
    .ok [notFoundMsg path]

/-- A record that counts as "containing a `url` key": a JSON object with a
`url` field. -/
def hasUrlKey : Json → Bool
  | .obj kvs => kvs.any (fun kv => kv.1 == "url")
  | _ => false

/-- Well-typed input in the sense of the specification: every record is a
mapping, and its `url` value, when present, is a string. -/
def WellTypedRecords (xs : List Json) : Prop :=
  ∀ t ∈ xs, ∃ kvs, t = Json.obj kvs ∧
    ∀ kv ∈ kvs, kv.1 = "url" → ∃ s, kv.2 = Json.str s

/-- An ASCII string containing neither `[` nor `]`; on such URL strings the
unmodelled `urlsplit` validation checks never fire. -/
def AsciiNoBrackets (s : String) : Prop :=
  (∀ c ∈ s.data, c.toNat < 128) ∧ '[' ∉ s.data ∧ ']' ∉ s.data

/-- Well-typed records whose `url` strings are ASCII and bracket-free. -/
def SafeRecords (xs : List Json) : Prop :=
  ∀ t ∈ xs, ∃ kvs, t = Json.obj kvs ∧
    ∀ kv ∈ kvs, kv.1 = "url" → ∃ s, kv.2 = Json.str s ∧ AsciiNoBrackets s

/-- Records that are mappings with no `url` field at all. -/
def NoUrlRecords (xs : List Json) : Prop :=
  ∀ t ∈ xs, ∃ kvs, t = Json.obj kvs ∧ ∀ kv ∈ kvs, kv.1 ≠ "url"

/-- Folding `bump` over a list whose accumulator starts with key `d` leaves
that entry in front, adds the number of further occurrences of `d` to its
count, and threads the remaining occurrences through the tail accumulator. -/
theorem foldl_bump_cons {α : Type} [DecidableEq α] (d : α) (ds : List α) :
    ∀ (c : Nat) (acc : List (α × Nat)),
      List.foldl (fun a x => bump x a) ((d, c) :: acc) ds
        = (d, c + ds.count d) ::
            List.foldl (fun a x => bump x a) acc (ds.filter (fun x => x ≠ d)) := by
  induction ds with
  | nil => intro c acc; simp
  | cons x ds ih =>
    intro c acc
    by_cases h : x = d
    · subst h
      have hb : bump x ((x, c) :: acc) = (x, c + 1) :: acc := by simp [bump]
      have hc : c + 1 + ds.count x = c + (x :: ds).count x := by
        simp [List.count_cons]; omega
      have hf : (x :: ds).filter (fun y => y ≠ x) = ds.filter (fun y => y ≠ x) := by
        simp [List.filter_cons]
      rw [List.foldl_cons, hb, ih, hc, hf]
    · have hb : bump x ((d, c) :: acc) = (d, c) :: bump x acc := by
        simp [bump, Ne.symm h]
      have hc : ds.count d = (x :: ds).count d := by
        simp [List.count_cons, Ne.symm h]
      have hf : (x :: ds).filter (fun y => y ≠ d) = x :: ds.filter (fun y => y ≠ d) := by
        simp [List.filter_cons, h]
      rw [List.foldl_cons, hb, ih, ← hc, hf, List.foldl_cons]

/-- Structural description of `Counter`: the head entry of `counter (d :: ds)`
is `d` with its full multiplicity, followed by the counts of the remaining
values in their own first-occurrence order. -/
theorem counter_cons {α : Type} [DecidableEq α] (d : α) (ds : List α) :
    counter (d :: ds)
      = (d, 1 + ds.count d) :: counter (ds.filter (fun x => x ≠ d)) := by
  show List.foldl (fun a x => bump x a) (bump d []) ds = _
  have : bump d [] = [(d, 1)] := rfl
  rw [this]
  exact foldl_bump_cons d ds 1 []

/-- Occurrences of `d` plus survivors of the `≠ d` filter partition a list. -/
theorem count_add_filter_length {α : Type} [DecidableEq α] (d : α) (t : List α) :
    t.count d + (t.filter (fun x => x ≠ d)).length = t.length := by
  induction t with
  | nil => rfl
  | cons x t ih =>
    simp only [decide_not] at ih ⊢
    by_cases h : x = d
    · subst h; simp only [List.count_cons, List.filter_cons]; simp; omega
    · simp only [List.count_cons, List.filter_cons]
      simp [h, Ne.symm h]
      omega

/-- Fuel-indexed form: the counts in the frequency table sum to the length of
the counted list. -/
theorem sumCounts_counter_aux {α : Type} [DecidableEq α] :
    ∀ (n : Nat) (ds : List α), ds.length ≤ n →
      sumCounts (counter ds) = ds.length := by
  intro n
  induction n with
  | zero =>
    intro ds h
    have : ds = [] := List.eq_nil_of_length_eq_zero (Nat.le_zero.mp h)
    subst this; rfl
  | succ n ih =>
    intro ds h
    match ds with
    | [] => rfl
    | d :: t =>
      rw [counter_cons]
      have hlen : (t.filter (fun x => x ≠ d)).length ≤ n := by
        have h1 := List.length_filter_le (fun x => x ≠ d) t
        have h2 : t.length ≤ n := by simpa using Nat.le_of_succ_le_succ h
        omega
      have hrec := ih _ hlen
      have hcf := count_add_filter_length d t
      simp only [sumCounts, List.map_cons, List.sum_cons] at hrec ⊢
      simp only [List.length_cons]
      omega

/-- The counts in the frequency table sum to the length of the counted
list. -/
theorem sumCounts_counter {α : Type} [DecidableEq α] (ds : List α) :
    sumCounts (counter ds) = ds.length :=
  sumCounts_counter_aux ds.length ds le_rfl

/-- Fuel-indexed form: the keys of the frequency table are exactly the
distinct values of the counted list. -/
theorem mem_counter_fst_aux {α : Type} [DecidableEq α] :
    ∀ (n : Nat) (ds : List α) (k : α), ds.length ≤ n →
      (k ∈ (counter ds).map Prod.fst ↔ k ∈ ds) := by
  intro n
  induction n with
  | zero =>
    intro ds k h
    have : ds = [] := List.eq_nil_of_length_eq_zero (Nat.le_zero.mp h)
    subst this; simp [counter]
  | succ n ih =>
    intro ds k h
    match ds with
    | [] => simp [counter]
    | d :: t =>
      rw [counter_cons]
      have hlen : (t.filter (fun x => x ≠ d)).length ≤ n := by
        have h1 := List.length_filter_le (fun x => x ≠ d) t
        have h2 : t.length ≤ n := by simpa using Nat.le_of_succ_le_succ h
        omega
      have hrec := ih (t.filter (fun x => x ≠ d)) k hlen
      rw [List.map_cons, List.mem_cons, hrec, List.mem_filter, List.mem_cons]
      by_cases hk : k = d
      · subst hk; simp
      · simp [hk]

/-- The keys of the frequency table are exactly the distinct counted
values. -/
theorem mem_counter_fst {α : Type} [DecidableEq α] (ds : List α) (k : α) :
    k ∈ (counter ds).map Prod.fst ↔ k ∈ ds :=
  mem_counter_fst_aux ds.length ds k le_rfl

/-- The key of any frequency-table entry occurs in the counted list. -/
theorem counter_fst_mem {α : Type} [DecidableEq α] {ds : List α} {p : α × Nat}
    (hp : p ∈ counter ds) : p.1 ∈ ds :=
  (mem_counter_fst ds p.1).mp (List.mem_map_of_mem Prod.fst hp)

/-- Filtering preserves the relative order of first occurrences: when two
values both survive the filter, their first-occurrence indices in the
filtered list compare the same way as in the original list. -/
theorem indexOf_filter_lt {α : Type} [DecidableEq α] (p : α → Bool) :
    ∀ (l : List α) (a b : α), a ∈ l.filter p → b ∈ l.filter p →
      (l.filter p).indexOf a < (l.filter p).indexOf b →
      l.indexOf a < l.indexOf b := by
  intro l
  induction l with
  | nil => simp
  | cons h t ih =>
    intro a b ha hb hlt
    by_cases hp : p h
    · rw [List.filter_cons_of_pos hp] at ha hb hlt
      by_cases hah : a = h
      · subst hah
        have hba : b ≠ a := by
          intro e; subst e; simp [List.indexOf_cons_self] at hlt
        rw [List.indexOf_cons_self, List.indexOf_cons_ne _ (Ne.symm hba)]
        omega
      · by_cases hbh : b = h
        · subst hbh
          rw [List.indexOf_cons_self] at hlt
          exact absurd hlt (Nat.not_lt_zero _)
        · rw [List.indexOf_cons_ne _ (Ne.symm hah),
            List.indexOf_cons_ne _ (Ne.symm hbh)] at hlt
          have ha' : a ∈ t.filter p := List.mem_of_ne_of_mem hah ha
          have hb' : b ∈ t.filter p := List.mem_of_ne_of_mem hbh hb
          have := ih a b ha' hb' (by omega)
          rw [List.indexOf_cons_ne _ (Ne.symm hah), List.indexOf_cons_ne _ (Ne.symm hbh)]
          omega
    · rw [List.filter_cons_of_neg hp] at ha hb hlt
      have hap : p a = true := (List.mem_filter.mp ha).2
      have hbp : p b = true := (List.mem_filter.mp hb).2
      have hah : a ≠ h := by intro e; subst e; exact hp (by simp [hap])
      have hbh : b ≠ h := by intro e; subst e; exact hp (by simp [hbp])
      have := ih a b ha hb hlt
      rw [List.indexOf_cons_ne _ (Ne.symm hah), List.indexOf_cons_ne _ (Ne.symm hbh)]
      omega

/-- Fuel-indexed form: the entries of the frequency table are ordered by the
first occurrence of their keys in the counted list. -/
theorem counter_pairwise_idx_aux {α : Type} [DecidableEq α] :
    ∀ (n : Nat) (ds : List α), ds.length ≤ n →
      List.Pairwise
        (fun a b : α × Nat => ds.indexOf a.1 < ds.indexOf b.1)
        (counter ds) := by
  intro n
  induction n with
  | zero =>
    intro ds h
    have : ds = [] := List.eq_nil_of_length_eq_zero (Nat.le_zero.mp h)
    subst this; exact List.Pairwise.nil
  | succ n ih =>
    intro ds h
    match ds with
    | [] => exact List.Pairwise.nil
    | d :: t =>
      rw [counter_cons]
      have hlen : (t.filter (fun x => x ≠ d)).length ≤ n := by
        have h1 := List.length_filter_le (fun x => x ≠ d) t
        have h2 : t.length ≤ n := by simpa using Nat.le_of_succ_le_succ h
        omega
      have hkey : ∀ p ∈ counter (t.filter (fun x => x ≠ d)),
          p.1 ∈ t ∧ p.1 ≠ d := by
        intro p hp
        have := counter_fst_mem hp
        rw [List.mem_filter] at this
        exact ⟨this.1, by simpa using this.2⟩
      constructor
      · intro p hp
        obtain ⟨hpt, hpd⟩ := hkey p hp
        rw [List.indexOf_cons_self, List.indexOf_cons_ne _ (Ne.symm hpd)]
        omega
      · have hrec := ih (t.filter (fun x => x ≠ d)) hlen
        refine List.Pairwise.imp_of_mem ?_ hrec
        intro a b ha hb hab
        obtain ⟨hat, had⟩ := hkey a ha
        obtain ⟨hbt, hbd⟩ := hkey b hb
        have hfa : a.1 ∈ t.filter (fun x => x ≠ d) := by
          rw [List.mem_filter]; exact ⟨hat, by simpa using had⟩
        have hfb : b.1 ∈ t.filter (fun x => x ≠ d) := by
          rw [List.mem_filter]; exact ⟨hbt, by simpa using hbd⟩
        have := indexOf_filter_lt _ t a.1 b.1 hfa hfb hab
        rw [List.indexOf_cons_ne _ (Ne.symm had), List.indexOf_cons_ne _ (Ne.symm hbd)]
        omega

/-- The entries of the frequency table are ordered by the first occurrence of
their keys in the counted list. -/
theorem counter_pairwise_idx {α : Type} [DecidableEq α] (ds : List α) :
    List.Pairwise
      (fun a b : α × Nat => ds.indexOf a.1 < ds.indexOf b.1)
      (counter ds) :=
  counter_pairwise_idx_aux ds.length ds le_rfl

/-- The ranking order: count descending, and among equal counts ascending in
the key measure `f` (instantiated with first-occurrence index). -/
abbrev rankRel {α : Type} (f : α → Nat) (a b : α × Nat) : Prop :=
  b.2 ≤ a.2 ∧ (a.2 = b.2 → f a.1 < f b.1)

/-- Membership in a descending insertion. -/
theorem mem_insertDesc {α : Type} (x p : α × Nat) :
    ∀ l, p ∈ insertDesc x l ↔ p = x ∨ p ∈ l := by
  intro l
  induction l with
  | nil => simp [insertDesc]
  | cons y ys ih =>
    simp only [insertDesc]
    split
    · simp only [List.mem_cons]
    · simp only [List.mem_cons, ih]; tauto

/-- Inserting an element whose key measure dominates the accumulator
preserves the ranking order: the element passes every entry with a greater or
equal count and stops before the first strictly smaller one. -/
theorem insertDesc_pairwise {α : Type} (f : α → Nat) (x : α × Nat) :
    ∀ l, List.Pairwise (rankRel f) l → (∀ y ∈ l, f y.1 < f x.1) →
      List.Pairwise (rankRel f) (insertDesc x l) := by
  intro l
  induction l with
  | nil => intro _ _; simp [insertDesc]
  | cons y ys ih =>
    intro hpw hx
    obtain ⟨hy, hys⟩ := List.pairwise_cons.mp hpw
    simp only [insertDesc]
    split
    · rename_i hlt
      refine List.Pairwise.cons ?_ hpw
      intro z hz
      rcases List.mem_cons.mp hz with rfl | hz'
      · exact ⟨Nat.le_of_lt hlt, fun he => absurd (he ▸ hlt) (lt_irrefl _)⟩
      · have hzy := hy z hz'
        have : z.2 < x.2 := Nat.lt_of_le_of_lt hzy.1 hlt
        exact ⟨Nat.le_of_lt this, fun he => absurd (he ▸ this) (lt_irrefl _)⟩
    · rename_i hge
      have hxy : x.2 ≤ y.2 := Nat.le_of_not_lt hge
      refine List.Pairwise.cons ?_ (ih hys (fun z hz => hx z (List.mem_cons_of_mem _ hz)))
      intro z hz
      rcases (mem_insertDesc x z ys).mp hz with rfl | hz'
      · exact ⟨hxy, fun _ => hx y (List.mem_cons_self _ _)⟩
      · exact hy z hz'

/-- Folding descending insertions over entries with strictly increasing key
measure yields a list ordered by the ranking order (count descending, key
measure ascending on ties): a stable descending sort. -/
theorem foldl_insertDesc_pairwise {α : Type} (f : α → Nat) :
    ∀ (l acc : List (α × Nat)),
      List.Pairwise (fun a b => f a.1 < f b.1) l →
      List.Pairwise (rankRel f) acc →
      (∀ y ∈ acc, ∀ z ∈ l, f y.1 < f z.1) →
      List.Pairwise (rankRel f) (List.foldl (fun a x => insertDesc x a) acc l) := by
  intro l
  induction l with
  | nil => intro acc _ hacc _; simpa using hacc
  | cons x l ih =>
    intro acc hl hacc hcross
    obtain ⟨hx, hl'⟩ := List.pairwise_cons.mp hl
    rw [List.foldl_cons]
    refine ih _ hl' ?_ ?_
    · exact insertDesc_pairwise f x acc hacc
        (fun y hy => hcross y hy x (List.mem_cons_self _ _))
    · intro y hy z hz
      rcases (mem_insertDesc x y acc).mp hy with rfl | hy'
      · exact hx z hz
      · exact hcross y hy' z (List.mem_cons_of_mem _ hz)

/-- Membership in the fold of descending insertions. -/
theorem mem_foldl_insertDesc {α : Type} (p : α × Nat) :
    ∀ (l acc : List (α × Nat)),
      p ∈ List.foldl (fun a x => insertDesc x a) acc l ↔ p ∈ acc ∨ p ∈ l := by
  intro l
  induction l with
  | nil => simp
  | cons x l ih =>
    intro acc
    rw [List.foldl_cons, ih, mem_insertDesc]
    simp only [List.mem_cons]
    tauto

/-- `most_common` is a reordering: it has exactly the entries of its input. -/
theorem mem_most_common {α : Type} (p : α × Nat) (l : List (α × Nat)) :
    p ∈ most_common l ↔ p ∈ l := by
  simp [most_common, mem_foldl_insertDesc]

/-- A record that is a mapping without a `url` key is skipped. -/
theorem extractStep_obj_noUrl (acc : List Domain) (kvs : List (String × Json))
    (h : kvs.any (fun kv => kv.1 == "url") = false) :
    extractStep acc (.obj kvs) = .ok acc := by
  simp [extractStep, pyHasUrl, h]

/-- A record that is a mapping with a string `url` value contributes the
outcome of `urlparse` on that string, as a str domain. -/
theorem extractStep_obj_url (acc : List Domain) (kvs : List (String × Json))
    (kv : String × Json) (s : String)
    (hany : kvs.any (fun kv => kv.1 == "url") = true)
    (hfind : kvs.find? (fun kv => kv.1 == "url") = some kv)
    (hs : kv.2 = Json.str s) :
    extractStep acc (.obj kvs) =
      match urlparseNetloc s with
      | .error e => .error e
      | .ok d => .ok (acc ++ [Domain.str d]) := by
  cases hu : urlparseNetloc s <;>
    simp [extractStep, pyHasUrl, hany, pyGetUrl, hfind, hs, urlparseValue, hu]

/-- A mapping with a `url` key always has a `find?` witness for it. -/
theorem find_url_of_any (kvs : List (String × Json))
    (hany : kvs.any (fun kv => kv.1 == "url") = true) :
    ∃ kv, kvs.find? (fun kv => kv.1 == "url") = some kv ∧ kv ∈ kvs ∧ kv.1 = "url" := by
  have : ∃ x ∈ kvs, (fun kv : String × Json => kv.1 == "url") x = true := by
    simpa [List.any_eq_true] using hany
  obtain ⟨x, hx, hpx⟩ := this
  have hsome : (kvs.find? (fun kv => kv.1 == "url")).isSome := by
    rw [List.find?_isSome]
    exact ⟨x, hx, hpx⟩
  obtain ⟨kv, hkv⟩ := Option.isSome_iff_exists.mp hsome
  refine ⟨kv, hkv, List.mem_of_find?_eq_some hkv, ?_⟩
  have := List.find?_some hkv
  simpa using this

/-- On well-typed records a successful extraction yields one domain per
record with a `url` key. -/
theorem extractList_length :
    ∀ (xs : List Json) (acc ds : List Domain), WellTypedRecords xs →
      extractList acc xs = .ok ds →
      ds.length = acc.length + (xs.filter hasUrlKey).length := by
  intro xs
  induction xs with
  | nil =>
    intro acc ds _ h
    simp only [extractList] at h
    cases h
    simp
  | cons t rest ih =>
    intro acc ds hwt h
    obtain ⟨kvs, rfl, hkvs⟩ := hwt t (List.mem_cons_self _ _)
    have hwt' : WellTypedRecords rest := fun t' ht' => hwt t' (List.mem_cons_of_mem _ ht')
    by_cases hany : kvs.any (fun kv => kv.1 == "url") = true
    · obtain ⟨kv, hfind, hmem, hurl⟩ := find_url_of_any kvs hany
      obtain ⟨s, hs⟩ := hkvs kv hmem hurl
      cases hu : urlparseNetloc s with
      | error e =>
        rw [extractList, extractStep_obj_url acc kvs kv s hany hfind hs, hu] at h
        cases h
      | ok d =>
        rw [extractList, extractStep_obj_url acc kvs kv s hany hfind hs, hu] at h
        have hrec := ih (acc ++ [Domain.str d]) ds hwt' h
        have hpos : hasUrlKey (Json.obj kvs) = true := hany
        rw [List.filter_cons_of_pos hpos]
        simp only [List.length_append, List.length_cons, List.length_nil] at hrec ⊢
        omega
    · have hany' : kvs.any (fun kv => kv.1 == "url") = false :=
        Bool.eq_false_iff.mpr hany
      rw [extractList, extractStep_obj_noUrl acc kvs hany'] at h
      have hrec := ih acc ds hwt' h
      have hneg : ¬hasUrlKey (Json.obj kvs) = true := by
        show ¬kvs.any (fun kv => kv.1 == "url") = true
        simp [hany']
      rw [List.filter_cons_of_neg hneg]
      exact hrec

/-- `stripScheme` only ever removes characters from the front. -/
theorem stripScheme_sublist (u : List Char) : List.Sublist (stripScheme u) u := by
  rw [stripScheme]
  split
  · exact List.drop_sublist _ _
  · exact List.Sublist.refl u

/-- The netloc candidate is built from characters of the input string. -/
theorem netlocChars_sublist (s : String) : List.Sublist (netlocChars s) s.data := by
  have q1 : List.Sublist (netlocChars s) ((urlRemainder s).drop 2) :=
    List.takeWhile_sublist _
  have q2 : List.Sublist ((urlRemainder s).drop 2) (urlRemainder s) :=
    List.drop_sublist _ _
  have q3 : List.Sublist (urlRemainder s)
      ((s.data.dropWhile isC0OrSpace).filter (fun c => !(isUnsafeUrlChar c))) :=
    stripScheme_sublist _
  have q4 : List.Sublist
      ((s.data.dropWhile isC0OrSpace).filter (fun c => !(isUnsafeUrlChar c)))
      (s.data.dropWhile isC0OrSpace) := List.filter_sublist _
  have q5 : List.Sublist (s.data.dropWhile isC0OrSpace) s.data :=
    List.dropWhile_sublist _
  exact (((q1.trans q2).trans q3).trans q4).trans q5

/-- On a URL string containing neither `[` nor `]`, `urlparse` cannot raise:
the only raising branch of the modelled netloc extraction requires a bracket
in the netloc, and the netloc is made of characters of the input. -/
theorem urlparseNetloc_ok_of_noBracket (s : String)
    (h1 : '[' ∉ s.data) (h2 : ']' ∉ s.data) :
    ∃ d, urlparseNetloc s = .ok d := by
  rw [urlparseNetloc]
  split
  · have hsub := netlocChars_sublist s
    have hb1 : (netlocChars s).contains '[' = false := by
      rw [Bool.eq_false_iff]
      intro hc
      exact h1 (hsub.subset (List.elem_iff.mp hc))
    have hb2 : (netlocChars s).contains ']' = false := by
      rw [Bool.eq_false_iff]
      intro hc
      exact h2 (hsub.subset (List.elem_iff.mp hc))
    rw [hb1, hb2]
    exact ⟨String.mk (netlocChars s), rfl⟩
  · exact ⟨"", rfl⟩

/-- On records that are mappings whose `url` values are ASCII bracket-free
strings, the extraction comprehension runs to completion, and every
collected domain is a str domain. -/
theorem extractList_ok_of_safe :
    ∀ (xs : List Json) (acc : List Domain), SafeRecords xs →
      (∀ d ∈ acc, ∃ s, d = Domain.str s) →
      ∃ ds, extractList acc xs = .ok ds ∧ ∀ d ∈ ds, ∃ s, d = Domain.str s := by
  intro xs
  induction xs with
  | nil => intro acc _ hacc; exact ⟨acc, rfl, hacc⟩
  | cons t rest ih =>
    intro acc hsafe hacc
    obtain ⟨kvs, rfl, hkvs⟩ := hsafe t (List.mem_cons_self _ _)
    have hsafe' : SafeRecords rest := fun t' ht' => hsafe t' (List.mem_cons_of_mem _ ht')
    by_cases hany : kvs.any (fun kv => kv.1 == "url") = true
    · obtain ⟨kv, hfind, hmem, hurl⟩ := find_url_of_any kvs hany
      obtain ⟨s, hs, hascii⟩ := hkvs kv hmem hurl
      obtain ⟨d, hd⟩ := urlparseNetloc_ok_of_noBracket s hascii.2.1 hascii.2.2
      have hacc' : ∀ x ∈ acc ++ [Domain.str d], ∃ v, x = Domain.str v := by
        intro x hx
        rcases List.mem_append.mp hx with hx' | hx'
        · exact hacc x hx'
        · simp only [List.mem_cons, List.not_mem_nil, or_false] at hx'
          exact ⟨d, hx'⟩
      obtain ⟨ds, hds, hstr⟩ := ih (acc ++ [Domain.str d]) hsafe' hacc'
      refine ⟨ds, ?_, hstr⟩
      rw [extractList, extractStep_obj_url acc kvs kv s hany hfind hs, hd]
      exact hds
    · have hany' : kvs.any (fun kv => kv.1 == "url") = false :=
        Bool.eq_false_iff.mpr hany
      obtain ⟨ds, hds, hstr⟩ := ih acc hsafe' hacc
      refine ⟨ds, ?_, hstr⟩
      rw [extractList, extractStep_obj_noUrl acc kvs hany']
      exact hds

/-- On records that are mappings without a `url` key, the extraction
comprehension succeeds and collects nothing. -/
theorem extractList_noUrl :
    ∀ (xs : List Json) (acc : List Domain), NoUrlRecords xs →
      extractList acc xs = .ok acc := by
  intro xs
  induction xs with
  | nil => intro acc _; rfl
  | cons t rest ih =>
    intro acc hno
    obtain ⟨kvs, rfl, hkvs⟩ := hno t (List.mem_cons_self _ _)
    have hno' : NoUrlRecords rest := fun t' ht' => hno t' (List.mem_cons_of_mem _ ht')
    have hany : kvs.any (fun kv => kv.1 == "url") = false := by
      rw [List.any_eq_false]
      intro kv hkv
      simpa using hkvs kv hkv
    rw [extractList, extractStep_obj_noUrl acc kvs hany]
    exact ih acc hno'

/-- The row loop formats every printed entry successfully when each printed
entry's domain is a str domain. -/
theorem coerceRows_ok_of_str :
    ∀ (stats : List (Domain × Nat)),
      (∀ e ∈ stats, ∃ s, e.1 = Domain.str s) →
      ∃ rows, coerceRows stats = .ok rows := by
  intro stats
  induction stats with
  | nil => intro _; exact ⟨[], rfl⟩
  | cons e rest ih =>
    intro h
    obtain ⟨s, hs⟩ := h e (List.mem_cons_self _ _)
    obtain ⟨rows, hrows⟩ := ih (fun x hx => h x (List.mem_cons_of_mem _ hx))
    refine ⟨(s, e.2) :: rows, ?_⟩
    have hrow : coerceRow e = .ok (s, e.2) := by
      obtain ⟨d, c⟩ := e
      simp only at hs
      subst hs
      rfl
    rw [coerceRows, hrow, hrows]

/-- Padding to width `w` yields exactly the maximum of `w` and the original
length: the width is a minimum, not a cap. -/
theorem ljust_length (s : String) (w : Nat) :
    (ljust s w).length = max w s.length := by
  rw [ljust]
  rw [String.length_append]
  have : (String.mk (List.replicate (w - s.length) ' ')).length = w - s.length := by
    show (List.replicate (w - s.length) ' ').length = w - s.length
    exact List.length_replicate _ _
  rw [this, Nat.max_def]
  split <;> omega

/-- The original string is a prefix of its padded form: `ljust` never
truncates. -/
theorem ljust_prefix (s : String) (w : Nat) :
    List.IsPrefix s.data (ljust s w).data :=
  ⟨List.replicate (w - s.length) ' ', by rw [ljust, String.data_append]⟩

/-- A string at least as long as the field width is rendered unchanged. -/
theorem ljust_long (s : String) (w : Nat) (h : w ≤ s.length) : ljust s w = s := by
  rw [ljust]
  have : w - s.length = 0 := Nat.sub_eq_zero_of_le h
  rw [this]
  apply String.ext
  rw [String.data_append]
  simp [List.replicate]

/-- C1: for every input sequence of records, the Ranking produced by the
Aggregator is sorted non-increasing by count, and among entries with equal
counts the order is the first-occurrence order of those domains in the
extracted domain sequence (a stable sort).  Stated over an arbitrary
extracted domain sequence `ds`: adjacent-or-later entries of
`Counter(ds).most_common()` never have a larger count, and on equal counts
the earlier entry's key occurs first in `ds`. -/
theorem claim1_ranking_sorted_stable (ds : List String) :
    List.Pairwise
      (fun a b : String × Nat =>
        b.2 ≤ a.2 ∧ (a.2 = b.2 → ds.indexOf a.1 < ds.indexOf b.1))
      (most_common (counter ds)) := by
  have h := foldl_insertDesc_pairwise (fun k => ds.indexOf k) (counter ds) []
    (counter_pairwise_idx ds) List.Pairwise.nil (by intro y hy; cases hy)
  exact h

/-- Witness for C1 at the concrete domain sequence
`["b.com", "a.com", "a.com"]`. -/
theorem claim1_witness :
    List.Pairwise
      (fun a b : String × Nat =>
        b.2 ≤ a.2 ∧ (a.2 = b.2 →
          (["b.com", "a.com", "a.com"] : List String).indexOf a.1
            < (["b.com", "a.com", "a.com"] : List String).indexOf b.1))
      (most_common (counter ["b.com", "a.com", "a.com"])) :=
  claim1_ranking_sorted_stable ["b.com", "a.com", "a.com"]

/-- C2: for every well-typed input (a sequence of mappings whose `url`
values, when present, are strings), when the extraction comprehension
completes — necessarily with str domains `ds` — the sum of all counts in the
Frequency Table equals the number of records that contain a `url` key. -/
theorem claim2_sum_counts (xs : List Json) (ds : List String)
    (hwt : WellTypedRecords xs)
    (h : extractDomains (Json.arr xs) = .ok (ds.map Domain.str)) :
    sumCounts (counter ds) = (xs.filter hasUrlKey).length := by
  have hx : extractList [] xs = .ok (ds.map Domain.str) := by
    simpa [extractDomains, pyIter] using h
  have hlen := extractList_length xs [] (ds.map Domain.str) hwt hx
  rw [sumCounts_counter]
  simpa using hlen

/-- Witness for C2 on a three-record input with two `url` fields. -/
theorem claim2_witness :
    WellTypedRecords
      [Json.obj [("url", Json.str "https://a.com/x")],
       Json.obj [("title", Json.str "t")],
       Json.obj [("url", Json.str "https://b.com")]] ∧
    extractDomains (Json.arr
      [Json.obj [("url", Json.str "https://a.com/x")],
       Json.obj [("title", Json.str "t")],
       Json.obj [("url", Json.str "https://b.com")]])
      = .ok ((["a.com", "b.com"] : List String).map Domain.str) ∧
    sumCounts (counter ["a.com", "b.com"])
      = ([Json.obj [("url", Json.str "https://a.com/x")],
          Json.obj [("title", Json.str "t")],
          Json.obj [("url", Json.str "https://b.com")]].filter hasUrlKey).length := by
  have hwt : WellTypedRecords
      [Json.obj [("url", Json.str "https://a.com/x")],
       Json.obj [("title", Json.str "t")],
       Json.obj [("url", Json.str "https://b.com")]] := by
    intro t ht
    simp only [List.mem_cons, List.not_mem_nil, or_false] at ht
    rcases ht with rfl | rfl | rfl
    · refine ⟨_, rfl, ?_⟩
      intro kv hkv
      simp only [List.mem_cons, List.not_mem_nil, or_false] at hkv
      subst hkv
      intro _
      exact ⟨_, rfl⟩
    · refine ⟨_, rfl, ?_⟩
      intro kv hkv
      simp only [List.mem_cons, List.not_mem_nil, or_false] at hkv
      subst hkv
      intro hk
      exact absurd hk (by decide)
    · refine ⟨_, rfl, ?_⟩
      intro kv hkv
      simp only [List.mem_cons, List.not_mem_nil, or_false] at hkv
      subst hkv
      intro _
      exact ⟨_, rfl⟩
  exact ⟨hwt, rfl, claim2_sum_counts _ _ hwt rfl⟩

/-- C3 is false as stated on the code: `urlparse` raises
`ValueError("Invalid IPv6 URL")` on the string `"http://["`, so extraction of
a record whose `url` value is that string raises instead of producing a
domain value. -/
theorem claim3_counterexample :
    extractDomains (Json.arr [Json.obj [("url", Json.str "http://[")]])
      = .error (PyErr.valueError "Invalid IPv6 URL") := rfl

/-- C3 amended: for every record whose string `url` value is ASCII and
contains no square bracket, extraction never raises — every such string,
including malformed URLs, is mapped to some (possibly empty or partial)
domain value.  URL strings with unbalanced square brackets in the authority
raise `ValueError`. -/
theorem claim3_amended (s : String)
    (hascii : ∀ c ∈ s.data, c.toNat < 128)
    (h1 : '[' ∉ s.data) (h2 : ']' ∉ s.data) :
    ∃ d, urlparseNetloc s = .ok d :=
  urlparseNetloc_ok_of_noBracket s h1 h2

/-- Witness for C3 amended on the malformed string `"not a url"`. -/
theorem claim3_witness :
    (∀ c ∈ ("not a url" : String).data, c.toNat < 128) ∧
    '[' ∉ ("not a url" : String).data ∧
    ']' ∉ ("not a url" : String).data ∧
    ∃ d, urlparseNetloc "not a url" = .ok d :=
  ⟨by decide, by decide, by decide,
    claim3_amended "not a url" (by decide) (by decide) (by decide)⟩

/-- C4 is false as stated on the code: the `try`/`except` only wraps
`open`/`json.load`, so when the parsed top-level JSON value is not a
sequence (here the number `5`), the extraction comprehension raises an
uncaught `TypeError` instead of printing a single line. -/
theorem claim4_counterexample :
    main "tabs.json" true (Except.ok (Json.num 5)) = .error PyErr.typeError := rfl

/-- C4 amended: the existence check and the `try`/`except` around loading
convert missing-file and unreadable/invalid-JSON failures into a single
printed line, and on a sequence of mappings whose `url` values are ASCII
bracket-free strings `main` returns normally; but not every failure is
caught at the top level — a parsed top-level value that is not a sequence,
such as the number `5` of the counterexample, makes the extraction
comprehension raise an uncaught `TypeError`. -/
theorem claim4_amended (path : String) :
    (∀ loadResult, main path false loadResult = .ok [notFoundMsg path]) ∧
    (∀ m, main path true (.error m) = .ok [readErrorMsg m]) ∧
    (∀ xs, SafeRecords xs →
      ∃ lines, main path true (.ok (Json.arr xs)) = .ok lines) := by
  refine ⟨fun _ => rfl, fun _ => rfl, fun xs hsafe => ?_⟩
  obtain ⟨ds, hds, hstr⟩ :=
    extractList_ok_of_safe xs [] hsafe (by intro d hd; cases hd)
  have hstats : ∀ e ∈ (most_common (counter ds)).take 30, ∃ s, e.1 = Domain.str s := by
    intro e he
    have h1 : e ∈ most_common (counter ds) := List.take_subset _ _ he
    have h2 : e ∈ counter ds := (mem_most_common e _).mp h1
    exact hstr e.1 (counter_fst_mem h2)
  obtain ⟨rows, hrows⟩ := coerceRows_ok_of_str _ hstats
  refine ⟨report rows, ?_⟩
  simp [main, extractDomains, pyIter, hds, hrows]

/-- Witness for C4 amended on a one-record input. -/
theorem claim4_witness :
    SafeRecords [Json.obj [("url", Json.str "https://a.com/x")]] ∧
    (∃ lines, main "tabs.json" true
      (.ok (Json.arr [Json.obj [("url", Json.str "https://a.com/x")]]))
        = .ok lines) := by
  have hsafe : SafeRecords [Json.obj [("url", Json.str "https://a.com/x")]] := by
    intro t ht
    simp only [List.mem_cons, List.not_mem_nil, or_false] at ht
    subst ht
    refine ⟨_, rfl, ?_⟩
    intro kv hkv
    simp only [List.mem_cons, List.not_mem_nil, or_false] at hkv
    subst hkv
    intro _
    exact ⟨_, rfl, by decide, by decide, by decide⟩
  exact ⟨hsafe, (claim4_amended "tabs.json").2.2 _ hsafe⟩

/-- C5: the Ranking contains every distinct domain seen (no limit at the
aggregation stage), while the Reporter prints at most 30 data rows, and
exactly one row per ranked entry when there are 30 or fewer. -/
theorem claim5_ranking_complete_report_bounded (ds : List String) :
    (∀ d, d ∈ (most_common (counter ds)).map Prod.fst ↔ d ∈ ds) ∧
    report (most_common (counter ds))
      = headerLine :: sepLine :: ((most_common (counter ds)).take 30).map rowLine ∧
    (((most_common (counter ds)).take 30).map rowLine).length ≤ 30 ∧
    ((most_common (counter ds)).length ≤ 30 →
      ((most_common (counter ds)).take 30).map rowLine
        = (most_common (counter ds)).map rowLine) := by
  refine ⟨?_, rfl, ?_, ?_⟩
  · intro d
    constructor
    · intro hd
      obtain ⟨p, hp, rfl⟩ := List.mem_map.mp hd
      have hpc := (mem_most_common p _).mp hp
      exact (mem_counter_fst ds p.1).mp (List.mem_map_of_mem _ hpc)
    · intro hd
      obtain ⟨p, hp, hfst⟩ := List.mem_map.mp ((mem_counter_fst ds d).mpr hd)
      exact List.mem_map.mpr ⟨p, (mem_most_common p _).mpr hp, hfst⟩
  · rw [List.length_map, List.length_take]
    exact min_le_left _ _
  · intro hle
    rw [List.take_of_length_le hle]

/-- Witness for C5 at the concrete domain sequence `["a.com", "b.com",
"a.com"]`. -/
theorem claim5_witness :
    (∀ d, d ∈ (most_common (counter ["a.com", "b.com", "a.com"])).map Prod.fst
      ↔ d ∈ (["a.com", "b.com", "a.com"] : List String)) ∧
    report (most_common (counter ["a.com", "b.com", "a.com"]))
      = headerLine :: sepLine ::
          ((most_common (counter ["a.com", "b.com", "a.com"])).take 30).map rowLine ∧
    (((most_common (counter ["a.com", "b.com", "a.com"])).take 30).map rowLine).length ≤ 30 ∧
    ((most_common (counter ["a.com", "b.com", "a.com"])).length ≤ 30 →
      ((most_common (counter ["a.com", "b.com", "a.com"])).take 30).map rowLine
        = (most_common (counter ["a.com", "b.com", "a.com"])).map rowLine) :=
  claim5_ranking_complete_report_bounded ["a.com", "b.com", "a.com"]

/-- C6: for every nonexistent path, `main` prints exactly the line
`Error: File <path> not found.`, returns normally, and does so without
consulting any file content (the output is independent of the load
result). -/
theorem claim6_not_found (path : String)
    (loadResult loadResult2 : Except String Json) :
    main path false loadResult = .ok [notFoundMsg path] ∧
    (notFoundMsg path).data
      = ("Error: File " : String).data ++ path.data ++ (" not found." : String).data ∧
    main path false loadResult = main path false loadResult2 := by
  refine ⟨rfl, ?_, rfl⟩
  rw [notFoundMsg]
  simp [String.data_append]

/-- C7: for every existing file whose content cannot be read or parsed,
`main` prints a single line that is `Error reading JSON:` followed by the
exception message, returns normally, and prints no table. -/
theorem claim7_read_error (path m : String) :
    main path true (.error m) = .ok [readErrorMsg m] ∧
    List.IsPrefix ("Error reading JSON:" : String).data (readErrorMsg m).data := by
  refine ⟨rfl, ⟨(" " : String).data ++ m.data, ?_⟩⟩
  have h1 : (readErrorMsg m).data = ("Error reading JSON: " : String).data ++ m.data := by
    rw [readErrorMsg, String.data_append]
  have h2 : ("Error reading JSON:" : String).data ++ (" " : String).data
      = ("Error reading JSON: " : String).data := by decide
  rw [h1, ← h2, List.append_assoc]

/-- C8: every printed data row left-justifies the domain padded to a minimum
width of 40 and the count to a minimum width of 10; a long domain is printed
in full, never truncated (the width is a minimum, not a cap). -/
theorem claim8_row_format (d : String) (c : Nat) :
    rowLine (d, c) = ljust d 40 ++ " | " ++ ljust (toString c) 10 ∧
    (ljust d 40).length = max 40 d.length ∧
    List.IsPrefix d.data (ljust d 40).data ∧
    (40 ≤ d.length → ljust d 40 = d) ∧
    (ljust (toString c) 10).length = max 10 (toString c).length :=
  ⟨rfl, ljust_length d 40, ljust_prefix d 40,
    fun h => ljust_long d 40 h, ljust_length _ 10⟩

/-- Witness for C8 on a 56-character domain, longer than the 40-character
field. -/
theorem claim8_witness :
    rowLine ("averyverylongsubdomainpart.anotherlongpart.example-site.com", 2)
      = ljust "averyverylongsubdomainpart.anotherlongpart.example-site.com" 40
          ++ " | " ++ ljust (toString 2) 10 ∧
    (ljust "averyverylongsubdomainpart.anotherlongpart.example-site.com" 40).length
      = max 40 ("averyverylongsubdomainpart.anotherlongpart.example-site.com" : String).length ∧
    List.IsPrefix ("averyverylongsubdomainpart.anotherlongpart.example-site.com" : String).data
      (ljust "averyverylongsubdomainpart.anotherlongpart.example-site.com" 40).data ∧
    (40 ≤ ("averyverylongsubdomainpart.anotherlongpart.example-site.com" : String).length →
      ljust "averyverylongsubdomainpart.anotherlongpart.example-site.com" 40
        = "averyverylongsubdomainpart.anotherlongpart.example-site.com") ∧
    (ljust (toString 2) 10).length = max 10 (toString 2).length :=
  claim8_row_format "averyverylongsubdomainpart.anotherlongpart.example-site.com" 2

/-- C9: the pipeline is deterministic — `main` is a pure function of the
path, the existence bit and the loaded content, so two runs on the same
unmodified input produce identical output. -/
theorem claim9_deterministic (path : String) (pathExists : Bool)
    (loadResult : Except String Json) :
    main path pathExists loadResult = main path pathExists loadResult := rfl

/-- C10 is false as stated on the code: `[5]` is a valid JSON sequence none
of whose records contains a `url` key, yet `'url' in 5` raises an uncaught
`TypeError`, so no header is printed. -/
theorem claim10_counterexample :
    main "tabs.json" true (.ok (Json.arr [Json.num 5])) = .error PyErr.typeError := rfl

/-- C10 amended: for every input whose top-level value is a valid JSON
sequence of mappings none of which contains a `url` key (including the empty
sequence), `main` prints the header row (`Domain` padded to 40 characters,
` | `, `Count` padded to 10 characters) and the separator line of 53 `-`
characters, followed by zero data rows, and completes without error. -/
theorem claim10_amended (path : String) (xs : List Json)
    (hno : NoUrlRecords xs) :
    main path true (.ok (Json.arr xs)) = .ok [headerLine, sepLine] ∧
    headerLine.data
      = ("Domain" : String).data ++ List.replicate 34 ' '
          ++ (" | " : String).data ++ ("Count" : String).data ++ List.replicate 5 ' ' ∧
    sepLine.data = List.replicate 53 '-' := by
  refine ⟨?_, by decide, rfl⟩
  have hds := extractList_noUrl xs [] hno
  simp [main, extractDomains, pyIter, hds, counter, most_common, coerceRows, report]

/-- Witness for C10 amended on a one-record input without a `url` key. -/
theorem claim10_witness :
    NoUrlRecords [Json.obj [("title", Json.str "t")]] ∧
    main "tabs.json" true (.ok (Json.arr [Json.obj [("title", Json.str "t")]]))
      = .ok [headerLine, sepLine] := by
  have hno : NoUrlRecords [Json.obj [("title", Json.str "t")]] := by
    intro t ht
    simp only [List.mem_cons, List.not_mem_nil, or_false] at ht
    subst ht
    refine ⟨_, rfl, ?_⟩
    intro kv hkv
    simp only [List.mem_cons, List.not_mem_nil, or_false] at hkv
    subst hkv
    decide
  exact ⟨hno, (claim10_amended "tabs.json" _ hno).1⟩

end TabStats
